import Mathlib

/-!
# Verification of the Effective-Quadratures Sobol'-indices engine

The repository's `ten_bar_truss_sobol_indices` notebook drives a
polynomial-chaos workflow: a total-order polynomial basis over `d` uniform
random variables, a randomized least-squares design, a least-squares fit of
the surrogate coefficients, and an analytical Sobol'-index decomposition of
the fitted coefficients.  The notebook itself only calls into the
`equadratures` library (`Basis`, `Polylsq`, `Statistics.getSobol`), whose
code is not part of the checked sources, so the computational engine is
modelled here from the specification and the claims are settled against
that model.
-/

namespace EffectiveQuadratures

open Matrix

/-! ## Basis: total-order multi-index enumeration -/

/-- Modelled from the spec: `Basis('Total order')` of the missing
`equadratures` library — enumerate all multi-indices (per-dimension degree
tuples) of length `d` whose total degree is at most `p`, in a deterministic
order (graded by the degree of the leading dimension, then recursively). -/
def totalOrderMultiIndices : ℕ → ℕ → List (List ℕ)
  | 0, _ => [[]]
  | d + 1, p => (List.range (p + 1)).flatMap fun k =>
      (totalOrderMultiIndices d (p - k)).map fun t => k :: t

lemma sum_map_list_range (f : ℕ → ℕ) (n : ℕ) :
    ((List.range n).map f).sum = ∑ i ∈ Finset.range n, f i := by
  induction n with
  | zero => simp
  | succ n ih =>
      rw [List.range_succ, List.map_append, List.sum_append, Finset.sum_range_succ, ih]
      simp

lemma totalOrderMultiIndices_length (d p : ℕ) :
    (totalOrderMultiIndices d p).length = (d + p).choose p := by
  induction d generalizing p with
  | zero => simp [totalOrderMultiIndices]
  | succ d ih =>
      rw [totalOrderMultiIndices, List.length_flatMap]
      have hcomp :
          (List.length ∘ fun k =>
              (totalOrderMultiIndices d (p - k)).map fun t => k :: t) =
            fun k => (totalOrderMultiIndices d (p - k)).length := by
        funext k
        simp
      rw [hcomp, sum_map_list_range]
      have hterm : ∀ k, (totalOrderMultiIndices d (p - k)).length =
          (d + (p - k)).choose (p - k) := fun k => ih (p - k)
      calc ∑ k ∈ Finset.range (p + 1), (totalOrderMultiIndices d (p - k)).length
          = ∑ k ∈ Finset.range (p + 1), (d + (p - k)).choose (p - k) := by
            exact Finset.sum_congr rfl fun k _ => hterm k
        _ = ∑ k ∈ Finset.range (p + 1), ((p - k) + d).choose d := by
            refine Finset.sum_congr rfl fun k _ => ?_
            rw [Nat.add_comm d (p - k)]
            rw [← Nat.choose_symm (Nat.le_add_right _ _)]
            congr 1
            omega
        _ = ∑ k ∈ Finset.range (p + 1), (k + d).choose d := by
            have := Finset.sum_range_reflect (fun k => (k + d).choose d) (p + 1)
            calc ∑ k ∈ Finset.range (p + 1), ((p - k) + d).choose d
                = ∑ k ∈ Finset.range (p + 1), ((p + 1 - 1 - k) + d).choose d := by
                  refine Finset.sum_congr rfl fun k _ => ?_
                  norm_num
              _ = ∑ k ∈ Finset.range (p + 1), (k + d).choose d := this
        _ = (p + d + 1).choose (d + 1) := Nat.sum_range_add_choose p d
        _ = (d + 1 + p).choose p := by
            rw [show d + 1 + p = p + d + 1 by omega]
            rw [← Nat.choose_symm (show d + 1 ≤ p + d + 1 by omega)]
            congr 1
            omega

/-! ## DesignBuilder: number of design rows -/

/-- Modelled from the spec: the row count of the `DesignMatrix` produced by
the missing `equadratures` `Polylsq` design construction with
`mesh='tensor'`, `optimization='random'` — the design has
`ceil(oversampling_factor * |basis|)` rows. -/
def designRows (oversampling : ℚ) (nBasis : ℕ) : ℕ :=
  (⌈oversampling * (nBasis : ℚ)⌉).toNat

/-! ## SurrogateFitter -/

/-- Modelled from the spec: the error taxonomy of the missing `equadratures`
fitting routines. -/
inductive FitError
  | sizeMismatchError
  | illConditionedSystemError
  deriving DecidableEq

/-- Modelled from the spec: the measurement matrix of the missing
`equadratures` `Polylsq.computeCoefficients` — entry `(i, k)` evaluates the
`k`-th basis term (the product over dimensions of each dimension's
orthogonal polynomial at the prescribed degree, supplied here as the family
`poly`) at the `i`-th design row. -/
def measurementMatrix {d N m : ℕ} (poly : Fin d → ℕ → ℚ → ℚ)
    (basisIdx : Fin N → Fin d → ℕ) (X : Matrix (Fin m) (Fin d) ℚ) :
    Matrix (Fin m) (Fin N) ℚ :=
  fun i k => ∏ j, poly j (basisIdx k j) (X i j)

/-- Modelled from the spec: the least-squares solve of the missing
`equadratures` `Polylsq.computeCoefficients` — validate that the response
vector is positionally aligned with the design rows (else
`SizeMismatchError`), reject a rank-deficient system (singular normal
matrix, `IllConditionedSystemError`), and otherwise return the
normal-equations solution `(Mᵀ M)⁻¹ Mᵀ y` of length `|basis|`, written via
the adjugate so that it is executable. -/
def computeCoefficients {m n : ℕ} (M : Matrix (Fin m) (Fin n) ℚ)
    (ys : List ℚ) : Except FitError (List ℚ) :=
  if h : ys.length = m then
    if (Mᵀ * M).det = 0 then .error .illConditionedSystemError
    else .ok (List.ofFn fun k =>
      (Mᵀ * M).det⁻¹ *
        ((Mᵀ * M).adjugate.mulVec
          (Mᵀ.mulVec fun i => ys.get (Fin.cast h.symm i))) k)
  else .error .sizeMismatchError

/-! ## SensitivityAnalyzer -/

/-- The set of dimensions in which a multi-index has non-zero degree. -/
def suppOf {d : ℕ} (mi : Fin d → ℕ) : Finset (Fin d) :=
  Finset.univ.filter fun j => mi j ≠ 0

/-- A fitted surrogate: positionally aligned basis multi-indices and
coefficients over `d` variables and `N` basis terms. -/
structure Surrogate (d N : ℕ) where
  basisIdx : Fin N → Fin d → ℕ
  coeff : Fin N → ℚ

/-- Modelled from the spec: the partial variance of a dimension subset `S` in
the missing `equadratures` sensitivity computation — the sum of squared
coefficients over exactly those basis terms whose non-zero-degree dimensions
are precisely `S` (orthonormal basis assumption). -/
def partialVariance {d N : ℕ} (s : Surrogate d N) (S : Finset (Fin d)) : ℚ :=
  ∑ k ∈ Finset.univ.filter (fun k => suppOf (s.basisIdx k) = S), (s.coeff k) ^ 2

/-- Modelled from the spec: the total variance — the sum of squared
coefficients of all non-constant basis terms. -/
def totalVariance {d N : ℕ} (s : Surrogate d N) : ℚ :=
  ∑ k ∈ Finset.univ.filter (fun k => suppOf (s.basisIdx k) ≠ ∅), (s.coeff k) ^ 2

/-- Modelled from the spec: the variance of all non-constant basis terms
involving only dimensions of `S` (the joint contribution of `S`, lower-order
terms included). -/
def jointVariance {d N : ℕ} (s : Surrogate d N) (S : Finset (Fin d)) : ℚ :=
  ∑ k ∈ Finset.univ.filter
      (fun k => suppOf (s.basisIdx k) ⊆ S ∧ suppOf (s.basisIdx k) ≠ ∅),
    (s.coeff k) ^ 2

/-- Modelled from the spec: the Sobol' index of a dimension subset `S` —
partial variance of `S` divided by total variance; in the degenerate case of
a surrogate with no variance (for instance a basis with no non-constant
term) every index is reported as `0` instead of dividing by zero. -/
def sobolIndex {d N : ℕ} (s : Surrogate d N) (S : Finset (Fin d)) : ℚ :=
  if totalVariance s = 0 then 0 else partialVariance s S / totalVariance s

/-- Modelled from the spec: `Statistics.getSobol(order)` of the missing
`equadratures` library — the mapping from every dimension subset of the
requested size to its Sobol' index, in the canonical subset order. -/
def getSobol {d N : ℕ} (s : Surrogate d N) (order : ℕ) :
    List (Finset (Fin d) × ℚ) :=
  ((List.finRange d).sublistsLen order).map
    fun l => (l.toFinset, sobolIndex s l.toFinset)

/-! ## The `Polylsq` object state (for the frame claim) -/

/-- A random-variable configuration as declared in the notebook:
a uniform distribution with bounds and a per-dimension order. -/
structure RandomVariable where
  lower : ℚ
  upper : ℚ
  order : ℕ
  deriving DecidableEq

/-- Modelled from the spec: the `Polylsq` object observable in the notebook —
its parameter configurations, basis multi-indices, quadrature points (the
design matrix) and, once computed, the coefficient vector. -/
structure Polylsq (d N m : ℕ) where
  parameters : Fin d → RandomVariable
  basisIdx : Fin N → Fin d → ℕ
  quadraturePoints : Matrix (Fin m) (Fin d) ℚ
  coefficients : Option (List ℚ)

/-- Modelled from the spec: `myPoly.computeCoefficients(deflections)` — runs
the least-squares fit against the stored design and basis and stores the
resulting coefficient vector, leaving every other component untouched. -/
def Polylsq.runFit {d N m : ℕ} (poly : Fin d → ℕ → ℚ → ℚ)
    (p : Polylsq d N m) (ys : List ℚ) : Polylsq d N m :=
  { p with
    coefficients :=
      match computeCoefficients (measurementMatrix poly p.basisIdx p.quadraturePoints) ys with
      | .ok cs => some cs
      | .error _ => none }

/-! ## Variance bookkeeping lemmas -/

lemma partialVariance_nonneg {d N : ℕ} (s : Surrogate d N) (S : Finset (Fin d)) :
    0 ≤ partialVariance s S :=
  Finset.sum_nonneg fun _ _ => sq_nonneg _

lemma totalVariance_nonneg {d N : ℕ} (s : Surrogate d N) :
    0 ≤ totalVariance s :=
  Finset.sum_nonneg fun _ _ => sq_nonneg _

/-- Summing the partial variances over any family of distinct non-empty
dimension subsets never exceeds the total variance: each basis term
contributes its squared coefficient to exactly one subset (its support). -/
lemma sum_partialVariance_le {d N : ℕ} (s : Surrogate d N)
    (F : Finset (Finset (Fin d))) (hF : ∅ ∉ F) :
    ∑ S ∈ F, partialVariance s S ≤ totalVariance s := by
  unfold partialVariance totalVariance
  rw [Finset.sum_fiberwise_eq_sum_filter Finset.univ F
    (fun k => suppOf (s.basisIdx k)) (fun k => (s.coeff k) ^ 2)]
  refine Finset.sum_le_sum_of_subset_of_nonneg ?_ fun k _ _ => sq_nonneg _
  intro k hk
  rw [Finset.mem_filter] at hk ⊢
  exact ⟨hk.1, fun hempty => hF (hempty ▸ hk.2)⟩

lemma totalVariance_pos {d N : ℕ} {s : Surrogate d N}
    (h : totalVariance s ≠ 0) : 0 < totalVariance s :=
  lt_of_le_of_ne (totalVariance_nonneg s) (Ne.symm h)

lemma partialVariance_le_totalVariance {d N : ℕ} (s : Surrogate d N)
    {S : Finset (Fin d)} (hS : S ≠ ∅) :
    partialVariance s S ≤ totalVariance s := by
  have h := sum_partialVariance_le s {S} (by
    rw [Finset.mem_singleton]
    exact fun h => hS h.symm)
  simpa using h

lemma sobolIndex_nonneg {d N : ℕ} (s : Surrogate d N) (S : Finset (Fin d)) :
    0 ≤ sobolIndex s S := by
  unfold sobolIndex
  split
  · exact le_refl 0
  · exact div_nonneg (partialVariance_nonneg s S) (totalVariance_nonneg s)

lemma sobolIndex_le_one {d N : ℕ} (s : Surrogate d N) {S : Finset (Fin d)}
    (hS : S ≠ ∅) : sobolIndex s S ≤ 1 := by
  unfold sobolIndex
  split
  · exact zero_le_one
  · next h =>
      rw [div_le_one (totalVariance_pos h)]
      exact partialVariance_le_totalVariance s hS

/-! ## The subsets enumerated by `getSobol` -/

/-- A sublist of a duplicate-free list is recovered by filtering the
enclosing list down to the sublist's elements. -/
lemma filter_mem_eq_of_sublist {α : Type*} [DecidableEq α] {l L : List α}
    (h : List.Sublist l L) (hL : L.Nodup) : L.filter (fun a => a ∈ l) = l := by
  induction h with
  | slnil => simp
  | @cons l₁ L₁ a h ih =>
      rw [List.nodup_cons] at hL
      have ha : a ∉ l₁ := fun hal => hL.1 (h.subset hal)
      rw [List.filter_cons_of_neg (by simpa using ha)]
      exact ih hL.2
  | @cons₂ l₁ L₁ a h ih =>
      rw [List.nodup_cons] at hL
      rw [List.filter_cons_of_pos (by simp)]
      have hcong : L₁.filter (fun x => decide (x ∈ a :: l₁)) =
          L₁.filter (fun x => decide (x ∈ l₁)) := by
        refine List.filter_congr fun x hx => ?_
        have hxa : x ≠ a := fun hxa => hL.1 (hxa ▸ hx)
        simp [List.mem_cons, hxa]
      rw [hcong, ih hL.2]

/-- Two sublists of a duplicate-free list with the same element set are
equal. -/
lemma sublist_toFinset_inj {α : Type*} [DecidableEq α] {L l₁ l₂ : List α}
    (h₁ : List.Sublist l₁ L) (h₂ : List.Sublist l₂ L) (hL : L.Nodup)
    (h : l₁.toFinset = l₂.toFinset) : l₁ = l₂ := by
  rw [← filter_mem_eq_of_sublist h₁ hL, ← filter_mem_eq_of_sublist h₂ hL]
  refine List.filter_congr fun x _ => ?_
  have : x ∈ l₁ ↔ x ∈ l₂ := by
    rw [← List.mem_toFinset, h, List.mem_toFinset]
  exact decide_eq_decide.mpr this

lemma getSobol_key_card {d N : ℕ} (s : Surrogate d N) (o : ℕ)
    {pr : Finset (Fin d) × ℚ} (hpr : pr ∈ getSobol s o) :
    pr.1.card = o ∧ pr.2 = sobolIndex s pr.1 := by
  unfold getSobol at hpr
  rw [List.mem_map] at hpr
  obtain ⟨l, hl, rfl⟩ := hpr
  rw [List.mem_sublistsLen] at hl
  have hnodup : l.Nodup := hl.1.nodup (List.nodup_finRange d)
  exact ⟨by rw [List.toFinset_card_of_nodup hnodup, hl.2], rfl⟩

lemma getSobol_keys_nodup {d N : ℕ} (s : Surrogate d N) (o : ℕ) :
    ((getSobol s o).map Prod.fst).Nodup := by
  unfold getSobol
  rw [List.map_map]
  have hmap : (Prod.fst ∘ fun l : List (Fin d) => (l.toFinset, sobolIndex s l.toFinset)) =
      fun l : List (Fin d) => l.toFinset := rfl
  rw [hmap]
  refine List.Nodup.map_on ?_ (List.nodup_sublistsLen o (List.nodup_finRange d))
  intro x hx y hy hxy
  rw [List.mem_sublistsLen] at hx hy
  exact sublist_toFinset_inj hx.1 hy.1 (List.nodup_finRange d) hxy

lemma getSobol_keys_toFinset {d N : ℕ} (s : Surrogate d N) (o : ℕ) :
    ((getSobol s o).map Prod.fst).toFinset =
      Finset.univ.filter fun S : Finset (Fin d) => S.card = o := by
  ext S
  simp only [List.mem_toFinset, getSobol, List.map_map, List.mem_map,
    Finset.mem_filter, Finset.mem_univ, true_and, Function.comp]
  constructor
  · rintro ⟨l, hl, rfl⟩
    rw [List.mem_sublistsLen] at hl
    rw [List.toFinset_card_of_nodup (hl.1.nodup (List.nodup_finRange d))]
    exact hl.2
  · intro hcard
    refine ⟨(List.finRange d).filter (fun a => a ∈ S), ?_, ?_⟩
    · rw [List.mem_sublistsLen]
      refine ⟨List.filter_sublist _, ?_⟩
      have hnodup : ((List.finRange d).filter (fun a => a ∈ S)).Nodup :=
        (List.filter_sublist _).nodup (List.nodup_finRange d)
      have htf : ((List.finRange d).filter (fun a => a ∈ S)).toFinset = S := by
        ext x
        simp [List.mem_filter, List.mem_finRange]
      rw [← List.toFinset_card_of_nodup hnodup, htf]
      exact hcard
    · ext x
      simp [List.mem_filter, List.mem_finRange]

/-- The values returned by `getSobol` sum to the sum of the Sobol' indices
over all dimension subsets of the requested size. -/
lemma getSobol_values_sum {d N : ℕ} (s : Surrogate d N) (o : ℕ) :
    ((getSobol s o).map Prod.snd).sum =
      ∑ S ∈ Finset.univ.filter (fun S : Finset (Fin d) => S.card = o),
        sobolIndex s S := by
  have h1 : (getSobol s o).map Prod.snd =
      ((getSobol s o).map Prod.fst).map (sobolIndex s) := by
    unfold getSobol
    simp only [List.map_map]
    rfl
  rw [h1, ← List.sum_toFinset _ (getSobol_keys_nodup s o), getSobol_keys_toFinset]

/-- The non-empty subsets of a pair `{i, j}` are `{i}`, `{j}` and `{i, j}`. -/
lemma subset_pair_nonempty_iff {d : ℕ} {i j : Fin d} (hij : i ≠ j)
    (S : Finset (Fin d)) :
    (S ⊆ {i, j} ∧ S ≠ ∅) ↔ S = {i} ∨ S = {j} ∨ S = {i, j} := by
  constructor
  · rintro ⟨hsub, hne⟩
    by_cases hi : i ∈ S <;> by_cases hj : j ∈ S
    · right; right
      refine Finset.Subset.antisymm hsub fun x hx => ?_
      rw [Finset.mem_insert, Finset.mem_singleton] at hx
      rcases hx with rfl | rfl
      · exact hi
      · exact hj
    · left
      refine Finset.Subset.antisymm (fun x hx => ?_) (Finset.singleton_subset_iff.mpr hi)
      have hx2 := hsub hx
      rw [Finset.mem_insert, Finset.mem_singleton] at hx2
      rw [Finset.mem_singleton]
      rcases hx2 with rfl | rfl
      · rfl
      · exact absurd hx hj
    · right; left
      refine Finset.Subset.antisymm (fun x hx => ?_) (Finset.singleton_subset_iff.mpr hj)
      have hx2 := hsub hx
      rw [Finset.mem_insert, Finset.mem_singleton] at hx2
      rw [Finset.mem_singleton]
      rcases hx2 with rfl | rfl
      · exact absurd hx hi
      · rfl
    · exfalso
      obtain ⟨x, hx⟩ := Finset.nonempty_iff_ne_empty.mpr hne
      have hx2 := hsub hx
      rw [Finset.mem_insert, Finset.mem_singleton] at hx2
      rcases hx2 with rfl | rfl
      · exact hi hx
      · exact hj hx
  · rintro (rfl | rfl | rfl)
    · exact ⟨Finset.singleton_subset_iff.mpr (Finset.mem_insert_self i {j}),
        Finset.singleton_ne_empty i⟩
    · exact ⟨Finset.singleton_subset_iff.mpr
        (Finset.mem_insert_of_mem (Finset.mem_singleton_self j)),
        Finset.singleton_ne_empty j⟩
    · exact ⟨Finset.Subset.refl _, Finset.insert_ne_empty i {j}⟩

/-- The joint variance of a pair splits into the two first-order partial
variances plus the pure-interaction partial variance. -/
lemma jointVariance_pair {d N : ℕ} (s : Surrogate d N) {i j : Fin d}
    (hij : i ≠ j) :
    jointVariance s {i, j} =
      partialVariance s {i} + partialVariance s {j} +
        partialVariance s {i, j} := by
  unfold jointVariance partialVariance
  have hij2 : ({i} : Finset (Fin d)) ≠ {j} := by
    simpa [Finset.singleton_inj] using hij
  have hij3 : ({i} : Finset (Fin d)) ≠ {i, j} := by
    intro h
    have : j ∈ ({i} : Finset (Fin d)) := by
      rw [h]
      exact Finset.mem_insert_of_mem (Finset.mem_singleton_self j)
    rw [Finset.mem_singleton] at this
    exact hij this.symm
  have hij4 : ({j} : Finset (Fin d)) ≠ {i, j} := by
    intro h
    have : i ∈ ({j} : Finset (Fin d)) := by
      rw [h]
      exact Finset.mem_insert_self i {j}
    rw [Finset.mem_singleton] at this
    exact hij this
  have hdisj1 : Disjoint
      (Finset.univ.filter fun k => suppOf (s.basisIdx k) = {i})
      (Finset.univ.filter fun k => suppOf (s.basisIdx k) = {j}) := by
    rw [Finset.disjoint_left]
    intro k hk1 hk2
    rw [Finset.mem_filter] at hk1 hk2
    exact hij2 (hk1.2 ▸ hk2.2)
  have hdisj2 : Disjoint
      ((Finset.univ.filter fun k => suppOf (s.basisIdx k) = {i}) ∪
        (Finset.univ.filter fun k => suppOf (s.basisIdx k) = {j}))
      (Finset.univ.filter fun k => suppOf (s.basisIdx k) = {i, j}) := by
    rw [Finset.disjoint_left]
    intro k hk1 hk2
    rw [Finset.mem_union, Finset.mem_filter, Finset.mem_filter] at hk1
    rw [Finset.mem_filter] at hk2
    rcases hk1 with h1 | h1
    · exact hij3 (h1.2 ▸ hk2.2)
    · exact hij4 (h1.2 ▸ hk2.2)
  have hfilter : (Finset.univ.filter fun k =>
      suppOf (s.basisIdx k) ⊆ {i, j} ∧ suppOf (s.basisIdx k) ≠ ∅) =
      ((Finset.univ.filter fun k => suppOf (s.basisIdx k) = {i}) ∪
        (Finset.univ.filter fun k => suppOf (s.basisIdx k) = {j})) ∪
        (Finset.univ.filter fun k => suppOf (s.basisIdx k) = {i, j}) := by
    ext k
    simp only [Finset.mem_filter, Finset.mem_union, Finset.mem_univ, true_and]
    rw [subset_pair_nonempty_iff hij]
    tauto
  rw [hfilter, Finset.sum_union hdisj2, Finset.sum_union hdisj1]

/-! ## Example surrogates used to witness the sensitivity theorems -/

/-- A small concrete fitted surrogate over two variables: basis terms
`1, x₁, x₂, x₁x₂` with coefficients `1, 2, 3, 4`. -/
def exampleSurrogate : Surrogate 2 4 :=
  { basisIdx := ![![0, 0], ![1, 0], ![0, 1], ![1, 1]], coeff := ![1, 2, 3, 4] }

/-- A degenerate surrogate whose basis holds only the constant term. -/
def constSurrogate : Surrogate 2 1 :=
  { basisIdx := ![![0, 0]], coeff := ![5] }

/-! ## Claim theorems: sensitivity analysis -/

/-- C1: the second-order Sobol' index of a pair `(i, j)` equals the partial
variance summed over exactly the multi-indices whose non-zero-degree
dimension set is precisely `{i, j}`, divided by the total variance — and
equivalently the joint contribution of `{i, j}` minus the first-order
indices of `i` and `j`: the pure interaction term, not the joint term. -/
theorem secondOrder_index_pure_interaction {d N : ℕ} (s : Surrogate d N)
    (i j : Fin d) (hij : i ≠ j) (ht : totalVariance s ≠ 0) :
    sobolIndex s {i, j} =
      (∑ k ∈ Finset.univ.filter
          (fun k => suppOf (s.basisIdx k) = {i, j}), (s.coeff k) ^ 2) /
        totalVariance s ∧
    sobolIndex s {i, j} =
      jointVariance s {i, j} / totalVariance s
        - sobolIndex s {i} - sobolIndex s {j} := by
  have hidx : ∀ S, sobolIndex s S = partialVariance s S / totalVariance s := by
    intro S
    unfold sobolIndex
    rw [if_neg ht]
  refine ⟨by rw [hidx]; rfl, ?_⟩
  rw [hidx, hidx, hidx, jointVariance_pair s hij]
  field_simp
  ring

/-- Witness for C1 on the concrete surrogate `exampleSurrogate`. -/
theorem secondOrder_index_pure_interaction_witness :
    ((0 : Fin 2) ≠ 1) ∧ totalVariance exampleSurrogate ≠ 0 ∧
    (sobolIndex exampleSurrogate {0, 1} =
      (∑ k ∈ Finset.univ.filter
          (fun k => suppOf (exampleSurrogate.basisIdx k) = {0, 1}),
        (exampleSurrogate.coeff k) ^ 2) / totalVariance exampleSurrogate ∧
    sobolIndex exampleSurrogate {0, 1} =
      jointVariance exampleSurrogate {0, 1} / totalVariance exampleSurrogate
        - sobolIndex exampleSurrogate {0} - sobolIndex exampleSurrogate {1}) := by
  have ht : totalVariance exampleSurrogate ≠ 0 := by
    simp [totalVariance, suppOf, exampleSurrogate, Finset.sum_filter,
      Fin.sum_univ_four]
    norm_num [Finset.filter_eq_empty_iff, Fin.forall_fin_two]
  exact ⟨by decide, ht,
    secondOrder_index_pure_interaction exampleSurrogate 0 1 (by decide) ht⟩

/-- C2: every Sobol' index returned for a requested order `o ≥ 1` lies in
`[0, 1]`; the first-order indices plus all requested higher-order indices
sum to at most `1`; and a variable appearing in no non-constant basis term
with non-zero coefficient has first-order index exactly `0`. -/
theorem sobol_index_invariants {d N : ℕ} (s : Surrogate d N) (maxOrder : ℕ)
    (_hbasis : ∃ k, suppOf (s.basisIdx k) ≠ ∅) :
    (∀ o, 1 ≤ o → ∀ pr ∈ getSobol s o, 0 ≤ pr.2 ∧ pr.2 ≤ 1) ∧
    (∑ o ∈ Finset.Icc 1 maxOrder, ((getSobol s o).map Prod.snd).sum ≤ 1) ∧
    (∀ i : Fin d, (∀ k, s.basisIdx k i ≠ 0 → s.coeff k = 0) →
      sobolIndex s {i} = 0) := by
  refine ⟨?_, ?_, ?_⟩
  · intro o ho pr hpr
    obtain ⟨hcard, hval⟩ := getSobol_key_card s o hpr
    have hne : pr.1 ≠ ∅ := by
      intro h
      rw [h, Finset.card_empty] at hcard
      omega
    rw [hval]
    exact ⟨sobolIndex_nonneg s pr.1, sobolIndex_le_one s hne⟩
  · have hsum : ∑ o ∈ Finset.Icc 1 maxOrder, ((getSobol s o).map Prod.snd).sum =
        ∑ o ∈ Finset.Icc 1 maxOrder, ∑ S ∈ Finset.univ.filter
          (fun S : Finset (Fin d) => S.card = o), sobolIndex s S :=
      Finset.sum_congr rfl fun o _ => getSobol_values_sum s o
    rw [hsum]
    by_cases htv : totalVariance s = 0
    · simp [sobolIndex, htv]
    · have hrw : ∀ o ∈ Finset.Icc 1 maxOrder,
          ∑ S ∈ Finset.univ.filter
            (fun S : Finset (Fin d) => S.card = o), sobolIndex s S =
          (∑ S ∈ Finset.univ.filter
            (fun S : Finset (Fin d) => S.card = o), partialVariance s S) *
            (totalVariance s)⁻¹ := by
        intro o _
        rw [Finset.sum_mul]
        refine Finset.sum_congr rfl fun S _ => ?_
        unfold sobolIndex
        rw [if_neg htv, div_eq_mul_inv]
      rw [Finset.sum_congr rfl hrw, ← Finset.sum_mul,
        Finset.sum_fiberwise_eq_sum_filter Finset.univ (Finset.Icc 1 maxOrder)
          Finset.card (partialVariance s)]
      have hle := sum_partialVariance_le s
        (Finset.univ.filter fun S : Finset (Fin d) =>
          S.card ∈ Finset.Icc 1 maxOrder)
        (by simp [Finset.mem_Icc])
      calc (∑ S ∈ Finset.univ.filter (fun S : Finset (Fin d) =>
              S.card ∈ Finset.Icc 1 maxOrder), partialVariance s S) *
            (totalVariance s)⁻¹
          ≤ totalVariance s * (totalVariance s)⁻¹ :=
            mul_le_mul_of_nonneg_right hle (inv_nonneg.mpr (totalVariance_nonneg s))
        _ = 1 := mul_inv_cancel₀ htv
  · intro i hi
    have hp : partialVariance s {i} = 0 := by
      unfold partialVariance
      refine Finset.sum_eq_zero fun k hk => ?_
      rw [Finset.mem_filter] at hk
      have hmem : i ∈ suppOf (s.basisIdx k) := by
        rw [hk.2]
        exact Finset.mem_singleton_self i
      unfold suppOf at hmem
      rw [Finset.mem_filter] at hmem
      rw [hi k hmem.2]
      ring
    unfold sobolIndex
    split
    · rfl
    · rw [hp, zero_div]

/-- Witness for C2 on the concrete surrogate `exampleSurrogate` with
requested orders up to `2`. -/
theorem sobol_index_invariants_witness :
    (∃ k, suppOf (exampleSurrogate.basisIdx k) ≠ ∅) ∧
    ((∀ o, 1 ≤ o → ∀ pr ∈ getSobol exampleSurrogate o, 0 ≤ pr.2 ∧ pr.2 ≤ 1) ∧
     (∑ o ∈ Finset.Icc 1 2,
        ((getSobol exampleSurrogate o).map Prod.snd).sum ≤ 1) ∧
     (∀ i : Fin 2, (∀ k, exampleSurrogate.basisIdx k i ≠ 0 →
        exampleSurrogate.coeff k = 0) → sobolIndex exampleSurrogate {i} = 0)) :=
  ⟨by decide, sobol_index_invariants exampleSurrogate 2 (by decide)⟩

/-- C8: for a degenerate basis with no non-constant term, every requested
Sobol' index of any order is reported as exactly `0`; the division-by-zero
branch is never taken (the model's index is a total function). -/
theorem degenerate_basis_zero_indices {d N : ℕ} (s : Surrogate d N)
    (h : ∀ k, suppOf (s.basisIdx k) = ∅) :
    ∀ o : ℕ, ∀ pr ∈ getSobol s o, pr.2 = 0 := by
  have htv : totalVariance s = 0 := by
    unfold totalVariance
    have hempty : (Finset.univ.filter fun k => suppOf (s.basisIdx k) ≠ ∅) = ∅ := by
      rw [Finset.filter_eq_empty_iff]
      intro k _
      simp [h k]
    rw [hempty, Finset.sum_empty]
  intro o pr hpr
  rw [(getSobol_key_card s o hpr).2]
  unfold sobolIndex
  rw [if_pos htv]

/-- Witness for C8 on the concrete constant-only surrogate. -/
theorem degenerate_basis_zero_indices_witness :
    (∀ k, suppOf (constSurrogate.basisIdx k) = ∅) ∧
    (∀ o : ℕ, ∀ pr ∈ getSobol constSurrogate o, pr.2 = 0) :=
  ⟨by decide, degenerate_basis_zero_indices constSurrogate (by decide)⟩

/-- C10: the first-order mapping has exactly `d` entries with pairwise
distinct keys (one per variable) and the second-order mapping exactly
`C(d, 2)` entries with pairwise distinct keys (one per unordered pair);
for `d = 15` these counts are `15` and `105`. -/
theorem getSobol_entry_counts {d N : ℕ} (s : Surrogate d N) :
    (getSobol s 1).length = d ∧ (getSobol s 2).length = d.choose 2 ∧
    ((getSobol s 1).map Prod.fst).Nodup ∧
    ((getSobol s 2).map Prod.fst).Nodup := by
  have hlen : ∀ o, (getSobol s o).length = d.choose o := by
    intro o
    unfold getSobol
    rw [List.length_map, List.length_sublistsLen, List.length_finRange]
  exact ⟨by rw [hlen 1, Nat.choose_one_right], by rw [hlen 2],
    getSobol_keys_nodup s 1, getSobol_keys_nodup s 2⟩

/-! ## Claim theorems: basis and design -/

/-- C3: for every dimension `d > 0` and maximum order `p`, the total-order
basis enumerates exactly `C(d + p, p)` multi-indices. -/
theorem totalOrder_basis_count (d p : ℕ) (_hd : 0 < d) :
    (totalOrderMultiIndices d p).length = (d + p).choose p :=
  totalOrderMultiIndices_length d p

/-- Witness for C3 at the hand-checked case `d = 2`, `p = 2` (6 terms). -/
theorem totalOrder_basis_count_witness :
    0 < 2 ∧ (totalOrderMultiIndices 2 2).length = Nat.choose (2 + 2) 2 ∧
      Nat.choose (2 + 2) 2 = 6 :=
  ⟨by decide, totalOrder_basis_count 2 2 (by decide), by decide⟩

/-- C4: for any oversampling factor of at least one, the design has exactly
`ceil(oversampling × |basis|)` rows, and that is at least `|basis|`. -/
theorem design_rows_count (osf : ℚ) (nBasis : ℕ) (h1 : 1 ≤ osf) :
    designRows osf nBasis = (⌈osf * (nBasis : ℚ)⌉).toNat ∧
    nBasis ≤ designRows osf nBasis := by
  refine ⟨rfl, ?_⟩
  have hmul : (nBasis : ℚ) ≤ osf * nBasis :=
    le_mul_of_one_le_left (Nat.cast_nonneg nBasis) h1
  have hceil : (nBasis : ℤ) ≤ ⌈osf * (nBasis : ℚ)⌉ := by
    have := Int.ceil_mono hmul
    rwa [Int.ceil_natCast] at this
  have := Int.toNat_le_toNat hceil
  rwa [Int.toNat_natCast] at this

/-- Witness for C4 in the notebook's configuration: oversampling `2.0` on a
basis of `816` terms gives `1632` quadrature points. -/
theorem design_rows_count_witness :
    (1 : ℚ) ≤ 2 ∧
    (designRows 2 816 = (⌈(2 : ℚ) * (816 : ℕ)⌉).toNat ∧
      816 ≤ designRows 2 816) ∧
    designRows 2 816 = 1632 := by
  refine ⟨by norm_num, design_rows_count 2 816 (by norm_num), ?_⟩
  unfold designRows
  norm_num
  rfl

/-! ## Claim theorems: surrogate fitting -/

/-- C5: if the responses are exact evaluations of a polynomial representable
in the basis (response vector `M c₀`) and the system is well conditioned,
the fit recovers exactly the true coefficients; and refitting identical
inputs yields identical coefficients. -/
theorem fit_round_trip {m n : ℕ} (M : Matrix (Fin m) (Fin n) ℚ)
    (c0 : Fin n → ℚ) (hdet : (Mᵀ * M).det ≠ 0) :
    computeCoefficients M (List.ofFn (M.mulVec c0)) = .ok (List.ofFn c0) ∧
    (∀ ys : List ℚ, computeCoefficients M ys = computeCoefficients M ys) := by
  refine ⟨?_, fun _ => rfl⟩
  unfold computeCoefficients
  rw [dif_pos (List.length_ofFn (M.mulVec c0))]
  rw [if_neg hdet]
  congr 1
  have hy : (fun i : Fin m =>
      (List.ofFn (M.mulVec c0)).get
        (Fin.cast (List.length_ofFn (M.mulVec c0)).symm i)) = M.mulVec c0 := by
    funext i
    rw [List.get_ofFn]
    congr 1
  rw [hy]
  congr 1
  funext k
  rw [Matrix.mulVec_mulVec, Matrix.mulVec_mulVec, Matrix.mul_assoc,
    Matrix.adjugate_mul, Matrix.smul_mulVec_assoc, Matrix.one_mulVec]
  simp only [Pi.smul_apply, smul_eq_mul]
  rw [inv_mul_cancel_left₀ hdet]

/-- Witness for C5 with the identity design on one basis term and true
coefficient `2`. -/
theorem fit_round_trip_witness :
    ((1 : Matrix (Fin 1) (Fin 1) ℚ)ᵀ * 1).det ≠ 0 ∧
    (computeCoefficients (1 : Matrix (Fin 1) (Fin 1) ℚ)
        (List.ofFn ((1 : Matrix (Fin 1) (Fin 1) ℚ).mulVec ![2])) =
      .ok (List.ofFn ![2]) ∧
    (∀ ys : List ℚ, computeCoefficients (1 : Matrix (Fin 1) (Fin 1) ℚ) ys =
      computeCoefficients (1 : Matrix (Fin 1) (Fin 1) ℚ) ys)) := by
  have hdet : ((1 : Matrix (Fin 1) (Fin 1) ℚ)ᵀ * 1).det ≠ 0 := by
    rw [Matrix.transpose_one, Matrix.mul_one, Matrix.det_one]
    exact one_ne_zero
  exact ⟨hdet, fit_round_trip 1 ![2] hdet⟩

/-- C6: a successful fit returns exactly `|basis|` coefficients, and a
rank-deficient measurement matrix (with correctly sized responses) makes the
fit fail with `IllConditionedSystemError` instead of returning
coefficients. -/
theorem fit_length_and_rank_guard {m n : ℕ} (M : Matrix (Fin m) (Fin n) ℚ)
    (ys : List ℚ) :
    (∀ cs, computeCoefficients M ys = .ok cs → cs.length = n) ∧
    (M.rank < n → ys.length = m →
      computeCoefficients M ys = .error .illConditionedSystemError) := by
  constructor
  · intro cs h
    unfold computeCoefficients at h
    split at h
    · split at h
      · cases h
      · rw [Except.ok.injEq] at h
        rw [← h, List.length_ofFn]
    · cases h
  · intro hrank hlen
    have hdet : (Mᵀ * M).det = 0 := by
      by_contra hne
      have hunit : IsUnit (Mᵀ * M) :=
        (Matrix.isUnit_iff_isUnit_det _).mpr (isUnit_iff_ne_zero.mpr hne)
      have hr : (Mᵀ * M).rank = n := by
        rw [Matrix.rank_of_isUnit _ hunit, Fintype.card_fin]
      rw [Matrix.rank_transpose_mul_self] at hr
      omega
    unfold computeCoefficients
    rw [dif_pos hlen, if_pos hdet]

/-- Witness for C6: the zero measurement matrix is rank deficient and the
fit reports `IllConditionedSystemError`. -/
theorem fit_length_and_rank_guard_witness :
    (0 : Matrix (Fin 1) (Fin 1) ℚ).rank < 1 ∧ ([(0 : ℚ)].length = 1) ∧
    computeCoefficients (0 : Matrix (Fin 1) (Fin 1) ℚ) [0] =
      .error .illConditionedSystemError := by
  have hrank : (0 : Matrix (Fin 1) (Fin 1) ℚ).rank < 1 := by
    rw [Matrix.rank_zero]
    exact Nat.one_pos
  exact ⟨hrank, rfl,
    (fit_length_and_rank_guard (0 : Matrix (Fin 1) (Fin 1) ℚ) [0]).2 hrank rfl⟩

/-- C7: a response vector whose length differs from the number of design
rows makes the fit fail with `SizeMismatchError`; neither input is
truncated. -/
theorem fit_size_mismatch {m n : ℕ} (M : Matrix (Fin m) (Fin n) ℚ)
    (ys : List ℚ) (hne : ys.length ≠ m) :
    computeCoefficients M ys = .error .sizeMismatchError := by
  unfold computeCoefficients
  rw [dif_neg hne]

/-- Witness for C7 at the claim's own scenario: 100 design rows against 99
responses. -/
theorem fit_size_mismatch_witness :
    (List.replicate 99 (0 : ℚ)).length ≠ 100 ∧
    computeCoefficients (0 : Matrix (Fin 100) (Fin 1) ℚ)
        (List.replicate 99 0) = .error .sizeMismatchError :=
  ⟨by simp, fit_size_mismatch (0 : Matrix (Fin 100) (Fin 1) ℚ)
    (List.replicate 99 0) (by simp)⟩

/-- C9: computing coefficients does not mutate the design matrix, the basis
multi-indices, or the variable configurations of the `Polylsq` object —
only the stored coefficient vector changes. -/
theorem runFit_frame {d N m : ℕ} (poly : Fin d → ℕ → ℚ → ℚ)
    (p : Polylsq d N m) (ys : List ℚ) :
    (p.runFit poly ys).quadraturePoints = p.quadraturePoints ∧
    (p.runFit poly ys).basisIdx = p.basisIdx ∧
    (p.runFit poly ys).parameters = p.parameters :=
  ⟨rfl, rfl, rfl⟩

end EffectiveQuadratures
